import Mathlib

/-!
Verification of the PageRank engine in `pagerank.py`.

The Python program is shallowly embedded: Python dicts become
insertion-ordered association lists, floats become rationals, raised
exceptions become `Except` errors, the pseudo-random source becomes an
explicit oracle of rationals in `[0,1)` consumed one value per call to
`random.choice` / `random.choices`, and the unbounded `while` loop of
`iterate_pagerank` becomes a fuel-bounded recursion returning `none`
when the fuel runs out before the convergence test fires.
-/

set_option maxHeartbeats 2000000
set_option maxRecDepth 8000

namespace PageRank

/-- Page identifiers: the Python corpus keys are filename strings. -/
abbrev Page := String

/-- A Python dict from pages to rationals (a probability model / rank table),
as an insertion-ordered association list. -/
abbrev Model := List (Page × ℚ)

/-- The corpus: each page mapped to the list of pages it links to.
Python stores the links as a `set`; the list fixes one iteration order
and carries a `Nodup` hypothesis where a claim needs it. -/
abbrev Corpus := List (Page × List Page)

/-- Python `m[k]` as an `Option`: the value at the first matching key. -/
def dlookup {α : Type} : List (Page × α) → Page → Option α
  | [], _ => none
  | (k, v) :: rest, p => if p = k then some v else dlookup rest p

/-- Python `m[k] = v`: overwrite in place if the key exists (keeping its
position, as dicts do), append otherwise. -/
def dset {α : Type} : List (Page × α) → Page → α → List (Page × α)
  | [], k, v => [(k, v)]
  | (k', v') :: rest, k, v =>
    if k = k' then (k, v) :: rest else (k', v') :: dset rest k v

/-- The key list of a dict, in iteration order. -/
def dkeys {α : Type} (m : List (Page × α)) : List Page := m.map (·.1)

/-- The value list of a dict, in iteration order. -/
def dvalues (m : Model) : List ℚ := m.map (·.2)

/-- Python `if k in m: m[k] += v else: m[k] = v`
(lines 78-81 and 142-145 of pagerank.py). -/
def daddOr (m : Model) (k : Page) (v : ℚ) : Model :=
  match dlookup m k with
  | some w => dset m k (w + v)
  | none => dset m k v

/-- The exceptions raised by (or reachable from) the Python functions. -/
inductive PyErr : Type where
  /-- `corpus[page]` with a page that is not a key. -/
  | keyError : PyErr
  /-- `random.choice` on an empty sequence. -/
  | indexError : PyErr
  /-- `random.choices` with nonpositive total weight. -/
  | valueError : PyErr
  /-- `Exception("probability not in bounds")` from checkProbabilityDictionary. -/
  | boundsErr : PyErr
  /-- `Exception("Sum probability ... == 1")` from checkProbabilityDictionary. -/
  | sumErr : PyErr
  deriving DecidableEq

instance instDecEqExcept {ε α : Type} [DecidableEq ε] [DecidableEq α] :
    DecidableEq (Except ε α) := fun x y =>
  match x, y with
  | .error a, .error b =>
    if h : a = b then isTrue (by rw [h])
    else isFalse (fun hc => h (Except.error.inj hc))
  | .error _, .ok _ => isFalse (fun hc => Except.noConfusion hc)
  | .ok _, .error _ => isFalse (fun hc => Except.noConfusion hc)
  | .ok a, .ok b =>
    if h : a = b then isTrue (by rw [h])
    else isFalse (fun hc => h (Except.ok.inj hc))

/-- Python's round-half-to-even of a rational to an integer. -/
def pyRoundInt (x : ℚ) : ℤ :=
  let f := ⌊x⌋
  let r := x - (f : ℚ)
  if r < 1 / 2 then f
  else if 1 / 2 < r then f + 1
  else if f % 2 = 0 then f else f + 1

/-- Python `round(x, 3)`. -/
def round3 (x : ℚ) : ℚ := (pyRoundInt (x * 1000) : ℚ) / 1000

/-- The loop of `checkProbabilityDictionary` (lines 101-104): raise at the
first value outside `[0,1]`, otherwise accumulate the running sum. -/
def checkSum : Model → ℚ → Except PyErr ℚ
  | [], s => .ok s
  | (_, v) :: rest, s =>
    if 1 < v ∨ v < 0 then .error .boundsErr else checkSum rest (s + v)

/-- `checkProbabilityDictionary` (lines 98-108): bounds check each value,
then require the sum rounded to 3 decimal places to be exactly 1. -/
def checkProbabilityDictionary (model : Model) : Except PyErr Bool :=
  match checkSum model 0 with
  | .error e => .error e
  | .ok s => if round3 s ≠ 1 then .error .sumErr else .ok true

/-- The first loop of `transition_model` (lines 69-70): each linked page is
assigned `damping_factor * 1 / len(linkedPages)`. -/
def tmLinked (linkedPages : List Page) (d : ℚ) : Model :=
  linkedPages.foldl
    (fun m p => dset m p (d * 1 / (linkedPages.length : ℚ))) []

/-- The second loop of `transition_model` (lines 76-81): every corpus page
additionally receives `(1 - damping_factor) / len(corpus)`, accumulated
into an existing entry if present. -/
def tmWithSurfer (corpus : Corpus) (linkedPages : List Page) (d : ℚ) :
    Model :=
  (dkeys corpus).foldl
    (fun m p => daddOr m p ((1 - d) / (corpus.length : ℚ)))
    (tmLinked linkedPages d)

/-- The sink-page branch of `transition_model` (lines 89-92): a fresh dict
assigning `1 / len(corpus)` to every corpus page. -/
def tmUniform (corpus : Corpus) : Model :=
  (dkeys corpus).foldl (fun m p => dset m p (1 / (corpus.length : ℚ))) []

/-- The dictionary `transition_model` builds before validating it:
the uniform distribution when `page` has no outbound links, otherwise the
two accumulated loops. -/
def tmRaw (corpus : Corpus) (linkedPages : List Page) (d : ℚ) : Model :=
  if linkedPages.length = 0 then tmUniform corpus
  else tmWithSurfer corpus linkedPages d

/-- `transition_model` (lines 53-96): look up the page's links (KeyError if
absent), build the distribution, validate it with
`checkProbabilityDictionary` (whose exception propagates), and return it. -/
def transition_model (corpus : Corpus) (page : Page) (d : ℚ) :
    Except PyErr Model :=
  match dlookup corpus page with
  | none => .error .keyError
  | some linkedPages =>
    match checkProbabilityDictionary (tmRaw corpus linkedPages d) with
    | .error e => .error e
    | .ok _ => .ok (tmRaw corpus linkedPages d)

/-- `random.choice(seq)`: pick index `⌊r * len(seq)⌋` for an oracle value
`r ∈ [0,1)`; IndexError on an empty sequence. -/
def uniformChoice {α : Type} (l : List α) (r : ℚ) : Except PyErr α :=
  match l with
  | [] => .error .indexError
  | a :: rest =>
    .ok ((a :: rest).getD (⌊r * ((a :: rest).length : ℚ)⌋).toNat a)

/-- Cumulative-weight selection: the first item whose cumulative weight
strictly exceeds the scaled oracle value `x`. -/
def weightedPick {α : Type} : List (α × ℚ) → ℚ → Option α
  | [], _ => none
  | (a, w) :: rest, x => if x < w then some a else weightedPick rest (x - w)

/-- `random.choices(population, weights, k=1)[0]`: scale the oracle value by
the total weight and select by cumulative weights. -/
def weightedChoice {α : Type} (items : List (α × ℚ)) (r : ℚ) :
    Except PyErr α :=
  match weightedPick items (r * (items.map (·.2)).sum) with
  | some a => .ok a
  | none => .error .valueError

/-- The body of sample_pagerank's loop (lines 125-152), run `steps` times.
Each iteration consumes three oracle values: one for the credited draw from
the transition model (line 139), one for the choice between
`"sampleFromLinkedPage"` (`true`) and `"sampleFromAllPages"` (`false`) with
weights `[d, 1-d]` (line 148), and one for whichever branch is taken
(lines 150/152).  `t` is the index of the next unconsumed oracle value. -/
def sampleSteps (corpus : Corpus) (d : ℚ) (n : ℕ) (oracle : ℕ → ℚ) :
    ℕ → ℕ → Model → Page → Except PyErr (Model × Page)
  | 0, _, counts, page => .ok (counts, page)
  | steps + 1, t, counts, page =>
    match transition_model corpus page d with
    | .error e => .error e
    | .ok tm =>
      match weightedChoice tm (oracle t) with
      | .error e => .error e
      | .ok drawn =>
        let counts' := daddOr counts drawn ((1 : ℚ) / (n : ℚ))
        match weightedChoice [(true, d), (false, 1 - d)] (oracle (t + 1)) with
        | .error e => .error e
        | .ok method =>
          match (if method then weightedChoice tm (oracle (t + 2))
                 else uniformChoice (dkeys corpus) (oracle (t + 2))) with
          | .error e => .error e
          | .ok next => sampleSteps corpus d n oracle steps (t + 3) counts' next

/-- `sample_pagerank` (lines 110-156): credit a uniformly chosen first page
`1/n`, run the remaining `n-1` steps, validate, and return the counts. -/
def sample_pagerank (corpus : Corpus) (d : ℚ) (n : ℕ) (oracle : ℕ → ℚ) :
    Except PyErr Model :=
  match uniformChoice (dkeys corpus) (oracle 0) with
  | .error e => .error e
  | .ok first =>
    let counts0 : Model := [(first, (1 : ℚ) / (n : ℚ))]
    match sampleSteps corpus d n oracle (n - 1) 1 counts0 first with
    | .error e => .error e
    | .ok (res, _) =>
      match checkProbabilityDictionary res with
      | .error e => .error e
      | .ok _ => .ok res

/-- One recording step of the incoming-links construction (lines 189-192):
append `page` to `incomingPages[p]`, creating the entry if needed. -/
def recordIncoming (idx : List (Page × List Page)) (p page : Page) :
    List (Page × List Page) :=
  match dlookup idx p with
  | some l => dset idx p (l ++ [page])
  | none => idx ++ [(p, [page])]

/-- The incoming-links index (lines 186-192): for each page, the list of
pages that link to it, in discovery order. -/
def incomingIndex (corpus : Corpus) : List (Page × List Page) :=
  corpus.foldl
    (fun idx pl => pl.2.foldl (fun idx2 p => recordIncoming idx2 p pl.1) idx)
    []

/-- The `newPageRank` accumulation (lines 202-208).  The two dictionary
reads cannot miss (every recorded incoming page is a corpus key that holds
a rank), so they are totalized with `getD`. -/
def newRankOf (corpus : Corpus) (d : ℚ) (ranks : Model) (inc : List Page) :
    ℚ :=
  inc.foldl
    (fun acc q =>
      acc + d * ((dlookup ranks q).getD 0)
        / (((dlookup corpus q).getD []).length : ℚ))
    ((1 - d) / (corpus.length : ℚ))

/-- One page's step inside a round (lines 200-212): `continue` when the page
has no incoming links, otherwise write the new rank into the shared dict and
add `|old - new|` to the round's accumulated change. -/
def roundStep (corpus : Corpus) (d : ℚ) (incIdx : List (Page × List Page))
    (acc : Model × ℚ) (p : Page) : Model × ℚ :=
  match dlookup incIdx p with
  | none => acc
  | some inc =>
    let newR := newRankOf corpus d acc.1 inc
    (dset acc.1 p newR, acc.2 + |((dlookup acc.1 p).getD 0) - newR|)

/-- One full round of the `while` loop body: fold `roundStep` over all
pages, threading the (in-place updated) rank dict and the change. -/
def runRound (corpus : Corpus) (d : ℚ) (incIdx : List (Page × List Page))
    (ranks : Model) : Model × ℚ :=
  (dkeys corpus).foldl (roundStep corpus d incIdx) (ranks, 0)

/-- The `while pageRankChange > 0.001` loop (lines 194-212), fuel-bounded;
`none` means the fuel ran out before a round's change fell to `≤ 0.001`. -/
def iterRounds (corpus : Corpus) (d : ℚ)
    (incIdx : List (Page × List Page)) : ℕ → Model → Option Model
  | 0, _ => none
  | fuel + 1, ranks =>
    let out := runRound corpus d incIdx ranks
    if out.2 ≤ 1 / 1000 then some out.1
    else iterRounds corpus d incIdx fuel out.1

/-- `iterate_pagerank` (lines 159-215): initialize every page's rank to
`1 / len(corpus)`, build the incoming-links index once, and loop. -/
def iterate_pagerank (corpus : Corpus) (d : ℚ) (fuel : ℕ) : Option Model :=
  let init : Model :=
    (dkeys corpus).foldl (fun m p => dset m p (1 / (corpus.length : ℚ))) []
  iterRounds corpus d (incomingIndex corpus) fuel init

/-- Modelled from the spec: the same per-page update as `runRound`
(including the skip of pages with no incoming links), but with every rank
read taken from the previous round's complete snapshot `ranks` instead of
the partially updated working dict. -/
def roundSnapshot (corpus : Corpus) (d : ℚ)
    (incIdx : List (Page × List Page)) (ranks : Model) : Model × ℚ :=
  (dkeys corpus).foldl
    (fun acc p =>
      match dlookup incIdx p with
      | none => acc
      | some inc =>
        let newR := newRankOf corpus d ranks inc
        (dset acc.1 p newR, acc.2 + |((dlookup ranks p).getD 0) - newR|))
    (ranks, 0)

/-- The graph well-formedness the spec assumes of core inputs: unique pages,
links that resolve to pages of the graph, and duplicate-free link sets. -/
abbrev CorpusWF (corpus : Corpus) : Prop :=
  (dkeys corpus).Nodup ∧
  (∀ pl ∈ corpus, ∀ q ∈ pl.2, q ∈ dkeys corpus) ∧
  (∀ pl ∈ corpus, pl.2.Nodup)

/-- `A ↔ B`, two pages linking to each other. -/
def corpus2 : Corpus := [("A", ["B"]), ("B", ["A"])]

/-- `A → B → C`, `C → B`: page `A` has no incoming links. -/
def corpus3 : Corpus := [("A", ["B"]), ("B", ["C"]), ("C", ["B"])]

/-- `A → B`, `B` a sink: page `A` has no incoming links, `B` no outgoing. -/
def corpusAB : Corpus := [("A", ["B"]), ("B", [])]

/-- `A → {B, C}`, `B → A`, `C → A`: the spec's 3-page transition example. -/
def corpusC7 : Corpus := [("A", ["B", "C"]), ("B", ["A"]), ("C", ["A"])]

/-! ### Association-list lemmas -/

@[simp] theorem dkeys_nil {α : Type} : dkeys ([] : List (Page × α)) = [] := rfl

@[simp] theorem dkeys_cons {α : Type} (kv : Page × α) (rest : List (Page × α)) :
    dkeys (kv :: rest) = kv.1 :: dkeys rest := rfl

@[simp] theorem dkeys_append {α : Type} (m m' : List (Page × α)) :
    dkeys (m ++ m') = dkeys m ++ dkeys m' := by
  simp [dkeys]

@[simp] theorem dvalues_nil : dvalues [] = [] := rfl

@[simp] theorem dvalues_cons (kv : Page × ℚ) (rest : Model) :
    dvalues (kv :: rest) = kv.2 :: dvalues rest := rfl

@[simp] theorem dvalues_append (m m' : Model) :
    dvalues (m ++ m') = dvalues m ++ dvalues m' := by
  simp [dvalues]

theorem dlookup_dset {α : Type} (m : List (Page × α)) (k p : Page) (v : α) :
    dlookup (dset m k v) p = if p = k then some v else dlookup m p := by
  induction m with
  | nil =>
    by_cases h : p = k <;> simp [dset, dlookup, h]
  | cons kv rest ih =>
    obtain ⟨k', v'⟩ := kv
    by_cases hk : k = k'
    · subst hk
      by_cases hp : p = k <;> simp [dset, dlookup, hp]
    · by_cases hp : p = k'
      · subst hp
        simp [dset, dlookup, hk, Ne.symm hk]
      · simp [dset, dlookup, hk, hp, ih]

theorem dlookup_none_iff {α : Type} (m : List (Page × α)) (k : Page) :
    dlookup m k = none ↔ k ∉ dkeys m := by
  induction m with
  | nil => simp [dlookup, dkeys]
  | cons kv rest ih =>
    by_cases h : k = kv.1
    · simp [dlookup, dkeys, h]
    · simp [dlookup, dkeys, h, ih]

theorem mem_of_dlookup {α : Type} {m : List (Page × α)} {k : Page} {v : α}
    (h : dlookup m k = some v) : (k, v) ∈ m := by
  induction m with
  | nil => simp [dlookup] at h
  | cons kv rest ih =>
    by_cases hk : k = kv.1
    · subst hk
      simp [dlookup] at h
      subst h
      exact List.mem_cons_self _ _
    · simp [dlookup, hk] at h
      exact List.mem_cons_of_mem _ (ih h)

theorem dlookup_of_mem_nodup {α : Type} {m : List (Page × α)}
    {kv : Page × α} (hnd : (dkeys m).Nodup) (hm : kv ∈ m) :
    dlookup m kv.1 = some kv.2 := by
  induction m with
  | nil => simp at hm
  | cons kv' rest ih =>
    rcases List.mem_cons.1 hm with h | h
    · subst h
      simp [dlookup]
    · have hk : kv.1 ≠ kv'.1 := by
        intro he
        have : kv.1 ∈ dkeys rest := List.mem_map_of_mem _ h
        rw [he] at this
        exact (List.nodup_cons.1 (by simpa [dkeys] using hnd)).1 this
      have hrest : (dkeys rest).Nodup :=
        (List.nodup_cons.1 (by simpa [dkeys] using hnd)).2
      simp [dlookup, hk]
      exact ih hrest h

theorem dset_of_not_mem {α : Type} {m : List (Page × α)} {k : Page}
    (v : α) (h : k ∉ dkeys m) : dset m k v = m ++ [(k, v)] := by
  induction m with
  | nil => simp [dset]
  | cons kv rest ih =>
    have hk : k ≠ kv.1 := by
      intro he
      exact h (by simp [dkeys, he])
    have hr : k ∉ dkeys rest := by
      intro he
      exact h (by simp [dkeys] at he ⊢; exact Or.inr he)
    simp [dset, hk, ih hr]

theorem dkeys_dset_of_mem {α : Type} {m : List (Page × α)} {k : Page}
    (v : α) (h : k ∈ dkeys m) : dkeys (dset m k v) = dkeys m := by
  induction m with
  | nil => simp at h
  | cons kv rest ih =>
    by_cases hk : k = kv.1
    · simp [dset, hk]
    · rw [dkeys_cons] at h
      rcases List.mem_cons.1 h with h' | h'
      · exact absurd h' hk
      · simp [dset, hk, ih h']

theorem dkeys_dset_sub {α : Type} {m : List (Page × α)} {k q : Page}
    {v : α} (h : q ∈ dkeys (dset m k v)) : q ∈ dkeys m ∨ q = k := by
  by_cases hk : k ∈ dkeys m
  · rw [dkeys_dset_of_mem v hk] at h
    exact Or.inl h
  · rw [dset_of_not_mem v hk, dkeys_append] at h
    rcases List.mem_append.1 h with h' | h'
    · exact Or.inl h'
    · exact Or.inr (by simpa using h')

theorem nodup_dkeys_dset {α : Type} {m : List (Page × α)} {k : Page}
    (v : α) (hnd : (dkeys m).Nodup) : (dkeys (dset m k v)).Nodup := by
  by_cases hk : k ∈ dkeys m
  · rwa [dkeys_dset_of_mem v hk]
  · rw [dset_of_not_mem v hk, dkeys_append]
    refine List.Nodup.append hnd (List.nodup_singleton k) ?_
    intro a ha hb
    rw [show dkeys [(k, v)] = [k] from rfl, List.mem_singleton] at hb
    exact hk (hb ▸ ha)

theorem dlookup_daddOr (m : Model) (k q : Page) (c : ℚ) :
    dlookup (daddOr m k c) q =
      if q = k then some ((dlookup m k).getD 0 + c) else dlookup m q := by
  unfold daddOr
  cases h : dlookup m k with
  | some w => simp [dlookup_dset, h]
  | none => simp [dlookup_dset, h]

theorem dkeys_daddOr_sub {m : Model} {k q : Page} {c : ℚ}
    (h : q ∈ dkeys (daddOr m k c)) : q ∈ dkeys m ∨ q = k := by
  unfold daddOr at h
  cases hl : dlookup m k with
  | some w => rw [hl] at h; exact dkeys_dset_sub h
  | none => rw [hl] at h; exact dkeys_dset_sub h

theorem nodup_dkeys_daddOr {m : Model} (k : Page) (c : ℚ)
    (hnd : (dkeys m).Nodup) : (dkeys (daddOr m k c)).Nodup := by
  unfold daddOr
  cases dlookup m k with
  | some w => exact nodup_dkeys_dset _ hnd
  | none => exact nodup_dkeys_dset _ hnd

theorem dvalues_sum_dset {m : Model} {k : Page} {w : ℚ} (c : ℚ)
    (h : dlookup m k = some w) :
    (dvalues (dset m k (w + c))).sum = (dvalues m).sum + c := by
  induction m with
  | nil => simp [dlookup] at h
  | cons kv rest ih =>
    by_cases hk : k = kv.1
    · have hw : kv.2 = w := by
        rw [show dlookup (kv :: rest) k = some kv.2 from by simp [dlookup, hk]]
          at h
        exact Option.some.inj h
      rw [show dset (kv :: rest) k (w + c) = (k, w + c) :: rest from by
        simp [dset, hk]]
      simp [hw]
      ring
    · have h' : dlookup rest k = some w := by simpa [dlookup, hk] using h
      rw [show dset (kv :: rest) k (w + c) = kv :: dset rest k (w + c) from by
        simp [dset, hk]]
      simp only [dvalues_cons, List.sum_cons, ih h']
      ring

theorem dvalues_sum_daddOr (m : Model) (k : Page) (c : ℚ) :
    (dvalues (daddOr m k c)).sum = (dvalues m).sum + c := by
  unfold daddOr
  cases h : dlookup m k with
  | some w => exact dvalues_sum_dset c h
  | none =>
    rw [dset_of_not_mem _ ((dlookup_none_iff m k).1 h)]
    simp [dvalues]

theorem foldl_dset_const {α : Type} (c : α) :
    ∀ (ks : List Page) (m : List (Page × α)), ks.Nodup →
      (∀ k ∈ ks, k ∉ dkeys m) →
      ks.foldl (fun m p => dset m p c) m = m ++ ks.map (fun p => (p, c))
  | [], m, _, _ => by simp
  | k :: rest, m, hnd, hfresh => by
    have hk : k ∉ dkeys m := hfresh k (List.mem_cons_self _ _)
    have hstep : dset m k c = m ++ [(k, c)] := dset_of_not_mem c hk
    have hnd' : rest.Nodup := (List.nodup_cons.1 hnd).2
    have hfresh' : ∀ k' ∈ rest, k' ∉ dkeys (m ++ [(k, c)]) := by
      intro k' hk' hmem
      rw [dkeys_append] at hmem
      rcases List.mem_append.1 hmem with h | h
      · exact hfresh k' (List.mem_cons_of_mem _ hk') h
      · have : k' = k := by simpa using h
        exact (List.nodup_cons.1 hnd).1 (this ▸ hk')
    calc (k :: rest).foldl (fun m p => dset m p c) m
        = rest.foldl (fun m p => dset m p c) (m ++ [(k, c)]) := by
          simp [List.foldl_cons, hstep]
      _ = (m ++ [(k, c)]) ++ rest.map (fun p => (p, c)) :=
          foldl_dset_const c rest (m ++ [(k, c)]) hnd' hfresh'
      _ = m ++ (k :: rest).map (fun p => (p, c)) := by simp

theorem dlookup_map_const {α : Type} (c : α) (q : Page) :
    ∀ ks : List Page,
      dlookup (ks.map (fun p => (p, c))) q = if q ∈ ks then some c else none
  | [] => by simp [dlookup]
  | k :: rest => by
    by_cases h : q = k
    · simp [dlookup, h]
    · simp [dlookup, h, dlookup_map_const c q rest]

theorem foldl_daddOr_lookup (c : ℚ) (q : Page) :
    ∀ (ks : List Page) (m : Model), ks.Nodup →
      dlookup (ks.foldl (fun m k => daddOr m k c) m) q =
        if q ∈ ks then some ((dlookup m q).getD 0 + c) else dlookup m q
  | [], m, _ => by simp
  | k :: rest, m, hnd => by
    have hnd' : rest.Nodup := (List.nodup_cons.1 hnd).2
    have hkr : k ∉ rest := (List.nodup_cons.1 hnd).1
    rw [List.foldl_cons, foldl_daddOr_lookup c q rest (daddOr m k c) hnd']
    by_cases hq : q ∈ rest
    · have hqk : q ≠ k := fun he => hkr (he ▸ hq)
      simp [hq, hqk, dlookup_daddOr, List.mem_cons]
    · by_cases hqk : q = k
      · subst hqk
        simp [hq, dlookup_daddOr]
      · simp [hq, hqk, dlookup_daddOr, List.mem_cons]

theorem foldl_daddOr_lookup_not_mem (c : ℚ) {q : Page}
    (ks : List Page) (m : Model) (hq : q ∉ ks) :
    dlookup (ks.foldl (fun m k => daddOr m k c) m) q = dlookup m q := by
  induction ks generalizing m with
  | nil => simp
  | cons k rest ih =>
    have hqk : q ≠ k := fun he => hq (he ▸ List.mem_cons_self _ _)
    have hqr : q ∉ rest := fun hm => hq (List.mem_cons_of_mem _ hm)
    rw [List.foldl_cons, ih _ hqr, dlookup_daddOr]
    simp [hqk]

theorem foldl_daddOr_sum (c : ℚ) :
    ∀ (ks : List Page) (m : Model),
      (dvalues (ks.foldl (fun m k => daddOr m k c) m)).sum =
        (dvalues m).sum + (ks.length : ℚ) * c
  | [], m => by simp
  | k :: rest, m => by
    rw [List.foldl_cons, foldl_daddOr_sum c rest (daddOr m k c),
      dvalues_sum_daddOr, List.length_cons]
    push_cast
    ring

theorem dkeys_foldl_daddOr_sub (c : ℚ) {q : Page} :
    ∀ (ks : List Page) (m : Model),
      q ∈ dkeys (ks.foldl (fun m k => daddOr m k c) m) →
        q ∈ dkeys m ∨ q ∈ ks
  | [], m, h => by rw [List.foldl_nil] at h; exact Or.inl h
  | k :: rest, m, h => by
    rcases dkeys_foldl_daddOr_sub c rest (daddOr m k c) h with h' | h'
    · rcases dkeys_daddOr_sub h' with h'' | h''
      · exact Or.inl h''
      · exact Or.inr (h'' ▸ List.mem_cons_self _ _)
    · exact Or.inr (List.mem_cons_of_mem _ h')

theorem nodup_dkeys_foldl_daddOr (c : ℚ) :
    ∀ (ks : List Page) (m : Model), (dkeys m).Nodup →
      (dkeys (ks.foldl (fun m k => daddOr m k c) m)).Nodup
  | [], _, h => h
  | k :: rest, m, h =>
    nodup_dkeys_foldl_daddOr c rest (daddOr m k c) (nodup_dkeys_daddOr k c h)

theorem dkeys_foldl_dset_sub {α : Type} (c : α) {q : Page} :
    ∀ (ks : List Page) (m : List (Page × α)),
      q ∈ dkeys (ks.foldl (fun m p => dset m p c) m) →
        q ∈ dkeys m ∨ q ∈ ks
  | [], m, h => by rw [List.foldl_nil] at h; exact Or.inl h
  | k :: rest, m, h => by
    rcases dkeys_foldl_dset_sub c rest (dset m k c) h with h' | h'
    · rcases dkeys_dset_sub h' with h'' | h''
      · exact Or.inl h''
      · exact Or.inr (h'' ▸ List.mem_cons_self _ _)
    · exact Or.inr (List.mem_cons_of_mem _ h')

theorem dlookup_append_some {α : Type} {m : List (Page × α)} {q : Page}
    {v : α} (m' : List (Page × α)) (h : dlookup m q = some v) :
    dlookup (m ++ m') q = some v := by
  induction m with
  | nil => simp [dlookup] at h
  | cons kv rest ih =>
    by_cases hq : q = kv.1
    · simpa [dlookup, hq] using h
    · simp [dlookup, hq] at h ⊢
      exact ih h

theorem dlookup_append_none {α : Type} {m : List (Page × α)} {q : Page}
    (m' : List (Page × α)) (h : dlookup m q = none) :
    dlookup (m ++ m') q = dlookup m' q := by
  induction m with
  | nil => simp
  | cons kv rest ih =>
    by_cases hq : q = kv.1
    · simp [dlookup, hq] at h
    · simp [dlookup, hq] at h ⊢
      exact ih h

theorem dkeys_map_pair {α : Type} (c : α) :
    ∀ ks : List Page, dkeys (ks.map (fun p => (p, c))) = ks
  | [] => rfl
  | k :: rest => by
    rw [List.map_cons, dkeys_cons, dkeys_map_pair c rest]

theorem dvalues_map_pair (c : ℚ) :
    ∀ ks : List Page, dvalues (ks.map (fun p => (p, c))) = ks.map (fun _ => c)
  | [] => rfl
  | k :: rest => by
    rw [List.map_cons, dvalues_cons, dvalues_map_pair c rest, List.map_cons]

theorem sum_map_const {α : Type} :
    ∀ (l : List α) (c : ℚ), (l.map (fun _ => c)).sum = (l.length : ℚ) * c
  | [], c => by simp
  | a :: rest, c => by
    rw [List.map_cons, List.sum_cons, sum_map_const rest c, List.length_cons]
    push_cast
    ring

/-! ### Lemmas about the validator -/

theorem checkSum_ok :
    ∀ (m : Model) (s : ℚ), (∀ pv ∈ m, ¬(1 < pv.2 ∨ pv.2 < 0)) →
      checkSum m s = .ok (s + (dvalues m).sum)
  | [], s, _ => by simp [checkSum]
  | pv :: rest, s, h => by
    rw [show checkSum (pv :: rest) s =
        if 1 < pv.2 ∨ pv.2 < 0 then .error .boundsErr
        else checkSum rest (s + pv.2) from rfl,
      if_neg (h pv (List.mem_cons_self _ _)),
      checkSum_ok rest (s + pv.2) (fun x hx => h x (List.mem_cons_of_mem _ hx))]
    rw [dvalues_cons, List.sum_cons, add_assoc]

theorem checkSum_error :
    ∀ (m : Model), (∃ pv ∈ m, 1 < pv.2 ∨ pv.2 < 0) →
      ∀ s, checkSum m s = .error .boundsErr
  | [], h, _ => by simp at h
  | pv :: rest, h, s => by
    rw [show checkSum (pv :: rest) s =
        if 1 < pv.2 ∨ pv.2 < 0 then .error .boundsErr
        else checkSum rest (s + pv.2) from rfl]
    by_cases hpv : 1 < pv.2 ∨ pv.2 < 0
    · rw [if_pos hpv]
    · rw [if_neg hpv]
      rcases h with ⟨x, hx, hxv⟩
      rcases List.mem_cons.1 hx with rfl | hx'
      · exact absurd hxv hpv
      · exact checkSum_error rest ⟨x, hx', hxv⟩ (s + pv.2)

/-- Sufficient conditions for `checkProbabilityDictionary` to accept:
per-entry bounds and the rounded sum equal to 1. -/
theorem check_ok_of (m : Model) (hb : ∀ pv ∈ m, 0 ≤ pv.2 ∧ pv.2 ≤ 1)
    (hs : round3 (dvalues m).sum = 1) :
    checkProbabilityDictionary m = .ok true := by
  unfold checkProbabilityDictionary
  rw [checkSum_ok m 0 (fun pv hpv =>
    not_or.mpr ⟨not_lt.mpr (hb pv hpv).2, not_lt.mpr (hb pv hpv).1⟩)]
  rw [zero_add]
  simp [hs]

/-! ### Lemmas about the random primitives -/

theorem weightedPick_mem {α : Type} :
    ∀ {items : List (α × ℚ)} {x : ℚ} {a : α},
      weightedPick items x = some a → a ∈ items.map (·.1)
  | [], x, a, h => by simp [weightedPick] at h
  | (b, w) :: rest, x, a, h => by
    rw [weightedPick] at h
    by_cases hx : x < w
    · rw [if_pos hx] at h
      rw [List.map_cons]
      exact (Option.some.inj h) ▸ List.mem_cons_self _ _
    · rw [if_neg hx] at h
      rw [List.map_cons]
      exact List.mem_cons_of_mem _ (weightedPick_mem h)

theorem weightedChoice_mem {α : Type} {items : List (α × ℚ)} {r : ℚ}
    {a : α} (h : weightedChoice items r = .ok a) : a ∈ items.map (·.1) := by
  unfold weightedChoice at h
  cases hp : weightedPick items (r * (items.map (·.2)).sum) with
  | some b =>
    rw [hp] at h
    exact (Except.ok.inj h) ▸ weightedPick_mem hp
  | none => rw [hp] at h; exact absurd h (by simp)

theorem getD_mem_or_eq {α : Type} :
    ∀ (l : List α) (n : ℕ) (d : α), l.getD n d ∈ l ∨ l.getD n d = d
  | [], _, d => Or.inr rfl
  | a :: rest, 0, d => Or.inl (List.mem_cons_self _ _)
  | a :: rest, n + 1, d => by
    rw [show (a :: rest).getD (n + 1) d = rest.getD n d from rfl]
    rcases getD_mem_or_eq rest n d with h | h
    · exact Or.inl (List.mem_cons_of_mem _ h)
    · exact Or.inr h

theorem uniformChoice_mem {α : Type} {l : List α} {r : ℚ} {a : α}
    (h : uniformChoice l r = .ok a) : a ∈ l := by
  cases l with
  | nil => exact absurd h (by simp [uniformChoice])
  | cons b rest =>
    rw [uniformChoice] at h
    have ha := Except.ok.inj h
    subst ha
    rcases getD_mem_or_eq (b :: rest)
        (⌊r * (((b :: rest).length : ℕ) : ℚ)⌋).toNat b with h' | h'
    · exact h'
    · rw [h']
      exact List.mem_cons_self _ _

/- From here on, closed goals are settled by evaluation; the Batteries
rational-arithmetic definitions are sealed against unfolding by default,
so they are reopened for the evaluator. -/
unseal Rat.add Rat.mul Rat.sub Rat.inv Rat.ofScientific

theorem round3_one : round3 1 = 1 := by decide

theorem length_dkeys {α : Type} (m : List (Page × α)) :
    (dkeys m).length = m.length :=
  List.length_map _ _

/-! ### The distribution built by transition_model -/

theorem tmUniform_eq (corpus : Corpus) (hnd : (dkeys corpus).Nodup) :
    tmUniform corpus =
      (dkeys corpus).map (fun p => (p, 1 / (corpus.length : ℚ))) := by
  unfold tmUniform
  rw [foldl_dset_const _ _ _ hnd (by simp)]
  simp

theorem tmLinked_eq (links : List Page) (d : ℚ) (hnd : links.Nodup) :
    tmLinked links d =
      links.map (fun p => (p, d * 1 / (links.length : ℚ))) := by
  unfold tmLinked
  rw [foldl_dset_const _ _ _ hnd (by simp)]
  simp

theorem tmUniform_lookup (corpus : Corpus) (hnd : (dkeys corpus).Nodup)
    {q : Page} (hq : q ∈ dkeys corpus) :
    dlookup (tmUniform corpus) q = some (1 / (corpus.length : ℚ)) := by
  rw [tmUniform_eq corpus hnd, dlookup_map_const, if_pos hq]

theorem tmUniform_check (corpus : Corpus) (hnd : (dkeys corpus).Nodup)
    (hne : corpus ≠ []) :
    checkProbabilityDictionary (tmUniform corpus) = .ok true := by
  have hpos : 0 < corpus.length := List.length_pos.2 hne
  have hNpos : (0 : ℚ) < (corpus.length : ℚ) := by exact_mod_cast hpos
  apply check_ok_of
  · intro pv hpv
    rw [tmUniform_eq corpus hnd] at hpv
    rcases List.mem_map.1 hpv with ⟨p, _, he⟩
    rw [← he]
    refine ⟨by positivity, ?_⟩
    rw [div_le_one hNpos]
    exact_mod_cast hpos
  · rw [tmUniform_eq corpus hnd, dvalues_map_pair, sum_map_const, length_dkeys,
      mul_one_div_cancel (ne_of_gt hNpos), round3_one]

theorem tmWithSurfer_lookup_linked (corpus : Corpus) (links : List Page)
    (d : ℚ) (hndk : (dkeys corpus).Nodup) (hlnd : links.Nodup)
    (hsub : ∀ q ∈ links, q ∈ dkeys corpus) {q : Page} (hq : q ∈ links) :
    dlookup (tmWithSurfer corpus links d) q =
      some (d * 1 / (links.length : ℚ) + (1 - d) / (corpus.length : ℚ)) := by
  unfold tmWithSurfer
  rw [foldl_daddOr_lookup _ q _ _ hndk, if_pos (hsub q hq),
    tmLinked_eq links d hlnd, dlookup_map_const, if_pos hq]
  rfl

theorem tmWithSurfer_lookup_unlinked (corpus : Corpus) (links : List Page)
    (d : ℚ) (hndk : (dkeys corpus).Nodup) (hlnd : links.Nodup)
    {q : Page} (hq : q ∈ dkeys corpus) (hql : q ∉ links) :
    dlookup (tmWithSurfer corpus links d) q =
      some ((1 - d) / (corpus.length : ℚ)) := by
  unfold tmWithSurfer
  rw [foldl_daddOr_lookup _ q _ _ hndk, if_pos hq,
    tmLinked_eq links d hlnd, dlookup_map_const, if_neg hql]
  rw [show ((none : Option ℚ).getD 0) = 0 from rfl, zero_add]

theorem tmWithSurfer_nodup_keys (corpus : Corpus) (links : List Page)
    (d : ℚ) (hlnd : links.Nodup) :
    (dkeys (tmWithSurfer corpus links d)).Nodup := by
  unfold tmWithSurfer
  apply nodup_dkeys_foldl_daddOr
  rw [tmLinked_eq links d hlnd, dkeys_map_pair]
  exact hlnd

theorem tmWithSurfer_keys_sub (corpus : Corpus) (links : List Page) (d : ℚ)
    (hsub : ∀ q ∈ links, q ∈ dkeys corpus) :
    ∀ q ∈ dkeys (tmWithSurfer corpus links d), q ∈ dkeys corpus := by
  intro q hq
  unfold tmWithSurfer at hq
  rcases dkeys_foldl_daddOr_sub _ _ _ hq with h | h
  · unfold tmLinked at h
    rcases dkeys_foldl_dset_sub _ _ _ h with h' | h'
    · simp at h'
    · exact hsub q h'
  · exact h

theorem tmWithSurfer_sum (corpus : Corpus) (links : List Page) (d : ℚ)
    (hlnd : links.Nodup) :
    (dvalues (tmWithSurfer corpus links d)).sum =
      (links.length : ℚ) * (d * 1 / (links.length : ℚ)) +
        (corpus.length : ℚ) * ((1 - d) / (corpus.length : ℚ)) := by
  unfold tmWithSurfer
  rw [foldl_daddOr_sum, tmLinked_eq links d hlnd, dvalues_map_pair,
    sum_map_const, length_dkeys]

theorem tmWithSurfer_bounds (corpus : Corpus) (links : List Page) (d : ℚ)
    (hndk : (dkeys corpus).Nodup) (hlnd : links.Nodup)
    (hsub : ∀ q ∈ links, q ∈ dkeys corpus) (hL : links ≠ [])
    (hne : corpus ≠ []) (hd0 : 0 < d) (hd1 : d < 1) :
    ∀ pv ∈ tmWithSurfer corpus links d, 0 ≤ pv.2 ∧ pv.2 ≤ 1 := by
  intro pv hpv
  have hL1 : (1 : ℚ) ≤ (links.length : ℚ) := by
    exact_mod_cast List.length_pos.2 hL
  have hN1 : (1 : ℚ) ≤ (corpus.length : ℚ) := by
    exact_mod_cast List.length_pos.2 hne
  have hlook := dlookup_of_mem_nodup (tmWithSurfer_nodup_keys corpus links d hlnd) hpv
  have hkey : pv.1 ∈ dkeys (tmWithSurfer corpus links d) :=
    List.mem_map_of_mem _ hpv
  have hkeyc : pv.1 ∈ dkeys corpus :=
    tmWithSurfer_keys_sub corpus links d hsub pv.1 hkey
  have hsL : d * 1 / (links.length : ℚ) ≤ d := by
    rw [mul_one]
    exact div_le_self hd0.le hL1
  have hsN : (1 - d) / (corpus.length : ℚ) ≤ 1 - d :=
    div_le_self (by linarith) hN1
  have hsL0 : 0 ≤ d * 1 / (links.length : ℚ) := by positivity
  have hsN0 : 0 ≤ (1 - d) / (corpus.length : ℚ) := by
    apply div_nonneg (by linarith)
    linarith
  by_cases hq : pv.1 ∈ links
  · rw [tmWithSurfer_lookup_linked corpus links d hndk hlnd hsub hq] at hlook
    have := Option.some.inj hlook
    rw [← this]
    constructor
    · linarith
    · linarith
  · rw [tmWithSurfer_lookup_unlinked corpus links d hndk hlnd hkeyc hq] at hlook
    have := Option.some.inj hlook
    rw [← this]
    constructor
    · linarith
    · linarith

theorem tmWithSurfer_check (corpus : Corpus) (links : List Page) (d : ℚ)
    (hndk : (dkeys corpus).Nodup) (hlnd : links.Nodup)
    (hsub : ∀ q ∈ links, q ∈ dkeys corpus) (hL : links ≠ [])
    (hne : corpus ≠ []) (hd0 : 0 < d) (hd1 : d < 1) :
    checkProbabilityDictionary (tmWithSurfer corpus links d) = .ok true := by
  apply check_ok_of
  · exact tmWithSurfer_bounds corpus links d hndk hlnd hsub hL hne hd0 hd1
  · rw [tmWithSurfer_sum corpus links d hlnd]
    have hL0 : (links.length : ℚ) ≠ 0 := by
      exact_mod_cast fun h => hL (List.length_eq_zero.1 h)
    have hN0 : (corpus.length : ℚ) ≠ 0 := by
      exact_mod_cast fun h => hne (List.length_eq_zero.1 h)
    have : (links.length : ℚ) * (d * 1 / (links.length : ℚ)) +
        (corpus.length : ℚ) * ((1 - d) / (corpus.length : ℚ)) = 1 := by
      field_simp
    rw [this, round3_one]

theorem tmRaw_keys_sub (corpus : Corpus) (links : List Page) (d : ℚ)
    (hsub : ∀ q ∈ links, q ∈ dkeys corpus) :
    ∀ q ∈ dkeys (tmRaw corpus links d), q ∈ dkeys corpus := by
  intro q hq
  unfold tmRaw at hq
  by_cases hl : links.length = 0
  · rw [if_pos hl] at hq
    unfold tmUniform at hq
    rcases dkeys_foldl_dset_sub _ _ _ hq with h | h
    · simp at h
    · exact h
  · rw [if_neg hl] at hq
    exact tmWithSurfer_keys_sub corpus links d hsub q hq

theorem transition_model_eq_of_lookup {corpus : Corpus} {page : Page}
    {d : ℚ} {links : List Page} (hlk : dlookup corpus page = some links) :
    transition_model corpus page d =
      match checkProbabilityDictionary (tmRaw corpus links d) with
      | .error e => .error e
      | .ok _ => .ok (tmRaw corpus links d) := by
  unfold transition_model
  rw [hlk]

theorem transition_model_none_of_lookup {corpus : Corpus} {page : Page}
    {d : ℚ} (hlk : dlookup corpus page = none) :
    transition_model corpus page d = .error .keyError := by
  unfold transition_model
  rw [hlk]

theorem transition_model_keys_sub {corpus : Corpus} {page : Page} {d : ℚ}
    {tm : Model} (hwf : CorpusWF corpus)
    (h : transition_model corpus page d = .ok tm) :
    ∀ q ∈ dkeys tm, q ∈ dkeys corpus := by
  cases hlk : dlookup corpus page with
  | none => rw [transition_model_none_of_lookup hlk] at h; exact absurd h (by simp)
  | some links =>
    rw [transition_model_eq_of_lookup hlk] at h
    cases hchk : checkProbabilityDictionary (tmRaw corpus links d) with
    | error e => rw [hchk] at h; exact absurd h (by simp)
    | ok b =>
      rw [hchk] at h
      have he : tm = tmRaw corpus links d := (Except.ok.inj h).symm
      subst he
      exact tmRaw_keys_sub corpus links d
        (fun q hq => hwf.2.1 (page, links) (mem_of_dlookup hlk) q hq)

/-! ### The incoming-links index -/

theorem recordIncoming_mem {idx : List (Page × List Page)}
    {p page p' q : Page}
    (h : q ∈ (dlookup (recordIncoming idx p page) p').getD []) :
    q ∈ (dlookup idx p').getD [] ∨ (q = page ∧ p' = p) := by
  unfold recordIncoming at h
  cases hl : dlookup idx p with
  | some l =>
    rw [hl, dlookup_dset] at h
    by_cases hp : p' = p
    · rw [if_pos hp] at h
      have h2 : q ∈ l ∨ q = page := by simpa using h
      rcases h2 with h' | h'
      · left
        rw [hp, hl]
        simpa using h'
      · exact Or.inr ⟨h', hp⟩
    · rw [if_neg hp] at h
      exact Or.inl h
  | none =>
    rw [hl] at h
    by_cases hp : p' = p
    · subst hp
      rw [dlookup_append_none _ hl] at h
      right
      refine ⟨?_, rfl⟩
      simpa [dlookup] using h
    · cases hl' : dlookup idx p' with
      | some v =>
        have hrw : dlookup (idx ++ [(p, [page])]) p' = dlookup idx p' := by
          rw [dlookup_append_some _ hl', hl']
        rw [hrw, hl'] at h
        exact Or.inl h
      | none =>
        rw [dlookup_append_none _ hl',
          show dlookup [(p, [page])] p' = none from by simp [dlookup, hp]] at h
        simp at h

theorem foldl_record_inv (R : Page → Page → Prop) (src : Page) :
    ∀ (links : List Page) (idx : List (Page × List Page)),
      (∀ p' q, q ∈ (dlookup idx p').getD [] → R q p') →
      (∀ p ∈ links, R src p) →
      ∀ p' q,
        q ∈ (dlookup
          (links.foldl (fun idx2 p => recordIncoming idx2 p src) idx) p').getD []
          → R q p'
  | [], idx, hidx, _, p', q, h => hidx p' q (by simpa using h)
  | p :: links, idx, hidx, hlinks, p', q, h => by
    refine foldl_record_inv R src links (recordIncoming idx p src) ?_
      (fun x hx => hlinks x (List.mem_cons_of_mem _ hx)) p' q (by simpa using h)
    intro pa qa ha
    rcases recordIncoming_mem ha with ha' | ⟨hq1, hq2⟩
    · exact hidx pa qa ha'
    · rw [hq1, hq2]
      exact hlinks p (List.mem_cons_self _ _)

theorem incomingIndex_inv (corpus : Corpus) (R : Page → Page → Prop)
    (hcorp : ∀ pl ∈ corpus, ∀ p ∈ pl.2, R pl.1 p) :
    ∀ p' q, q ∈ (dlookup (incomingIndex corpus) p').getD [] → R q p' := by
  suffices h : ∀ (entries : List (Page × List Page))
      (idx : List (Page × List Page)),
      (∀ p' q, q ∈ (dlookup idx p').getD [] → R q p') →
      (∀ pl ∈ entries, ∀ p ∈ pl.2, R pl.1 p) →
      ∀ p' q,
        q ∈ (dlookup (entries.foldl
          (fun idx pl => pl.2.foldl (fun idx2 p => recordIncoming idx2 p pl.1) idx)
          idx) p').getD [] → R q p' by
    exact fun p' q hq =>
      h corpus [] (fun p'' q' h' => by simp [dlookup] at h') hcorp p' q hq
  intro entries
  induction entries with
  | nil =>
    intro idx hidx _ p' q h
    exact hidx p' q (by simpa using h)
  | cons pl rest ih =>
    intro idx hidx hent p' q h
    refine ih _ ?_ (fun x hx => hent x (List.mem_cons_of_mem _ hx)) p' q
      (by simpa using h)
    exact foldl_record_inv R pl.1 pl.2 idx hidx
      (fun x hx => hent pl (List.mem_cons_self _ _) x hx)

/-! ### Key preservation in iterate_pagerank and sample_pagerank -/

theorem foldl_roundStep_keys (corpus : Corpus) (d : ℚ)
    (incIdx : List (Page × List Page)) :
    ∀ (ks : List Page) (acc : Model × ℚ), (∀ p ∈ ks, p ∈ dkeys acc.1) →
      dkeys (ks.foldl (roundStep corpus d incIdx) acc).1 = dkeys acc.1
  | [], _, _ => rfl
  | p :: rest, acc, h => by
    rw [List.foldl_cons]
    have hkeys : dkeys (roundStep corpus d incIdx acc p).1 = dkeys acc.1 := by
      unfold roundStep
      cases dlookup incIdx p with
      | none => rfl
      | some inc => exact dkeys_dset_of_mem _ (h p (List.mem_cons_self _ _))
    rw [foldl_roundStep_keys corpus d incIdx rest _
      (fun x hx => by rw [hkeys]; exact h x (List.mem_cons_of_mem _ hx)), hkeys]

theorem iterRounds_keys (corpus : Corpus) (d : ℚ)
    (incIdx : List (Page × List Page)) :
    ∀ (fuel : ℕ) (ranks res : Model), dkeys ranks = dkeys corpus →
      iterRounds corpus d incIdx fuel ranks = some res →
      dkeys res = dkeys corpus
  | 0, ranks, res, _, h => by simp [iterRounds] at h
  | fuel + 1, ranks, res, hrk, h => by
    simp only [iterRounds] at h
    have hkeys : dkeys (runRound corpus d incIdx ranks).1 = dkeys ranks := by
      unfold runRound
      exact foldl_roundStep_keys corpus d incIdx (dkeys corpus) (ranks, 0)
        (fun p hp => by rw [show (ranks, (0 : ℚ)).1 = ranks from rfl, hrk]; exact hp)
    by_cases hc : (runRound corpus d incIdx ranks).2 ≤ 1 / 1000
    · rw [if_pos hc] at h
      rw [← Option.some.inj h, hkeys, hrk]
    · rw [if_neg hc] at h
      exact iterRounds_keys corpus d incIdx fuel _ res (by rw [hkeys, hrk]) h

theorem sampleSteps_keys (corpus : Corpus) (d : ℚ) (n : ℕ)
    (oracle : ℕ → ℚ) (hwf : CorpusWF corpus) :
    ∀ (steps t : ℕ) (counts : Model) (page : Page) (res : Model) (pg : Page),
      (∀ q ∈ dkeys counts, q ∈ dkeys corpus) →
      sampleSteps corpus d n oracle steps t counts page = .ok (res, pg) →
      ∀ q ∈ dkeys res, q ∈ dkeys corpus
  | 0, t, counts, page, res, pg, hc, h => by
    rw [sampleSteps] at h
    have he := Except.ok.inj h
    rw [show res = counts from (congrArg Prod.fst he).symm]
    exact hc
  | steps + 1, t, counts, page, res, pg, hc, h => by
    rw [sampleSteps] at h
    cases htm : transition_model corpus page d with
    | error e => simp only [htm] at h; exact Except.noConfusion h
    | ok tm =>
      simp only [htm] at h
      cases hwc : weightedChoice tm (oracle t) with
      | error e => simp only [hwc] at h; exact Except.noConfusion h
      | ok drawn =>
        simp only [hwc] at h
        cases hm : weightedChoice [(true, d), (false, 1 - d)] (oracle (t + 1)) with
        | error e => simp only [hm] at h; exact Except.noConfusion h
        | ok method =>
          simp only [hm] at h
          cases hnx : (if method then weightedChoice tm (oracle (t + 2))
              else uniformChoice (dkeys corpus) (oracle (t + 2))) with
          | error e => simp only [hnx] at h; exact Except.noConfusion h
          | ok next =>
            simp only [hnx] at h
            refine sampleSteps_keys corpus d n oracle hwf steps (t + 3) _ next
              res pg ?_ h
            intro x hx
            rcases dkeys_daddOr_sub hx with h' | h'
            · exact hc x h'
            · have hdr : drawn ∈ dkeys tm := weightedChoice_mem hwc
              rw [h']
              exact transition_model_keys_sub hwf htm drawn hdr

theorem sample_pagerank_keys {corpus : Corpus} {d : ℚ} {n : ℕ}
    {oracle : ℕ → ℚ} {res : Model} (hwf : CorpusWF corpus)
    (h : sample_pagerank corpus d n oracle = .ok res) :
    ∀ q ∈ dkeys res, q ∈ dkeys corpus := by
  unfold sample_pagerank at h
  cases hu : uniformChoice (dkeys corpus) (oracle 0) with
  | error e => simp only [hu] at h; exact Except.noConfusion h
  | ok first =>
    simp only [hu] at h
    cases hs : sampleSteps corpus d n oracle (n - 1) 1
        [(first, (1 : ℚ) / (n : ℚ))] first with
    | error e => simp only [hs] at h; exact Except.noConfusion h
    | ok pr =>
      obtain ⟨res', pg⟩ := pr
      simp only [hs] at h
      cases hchk : checkProbabilityDictionary res' with
      | error e => simp only [hchk] at h; exact Except.noConfusion h
      | ok b =>
        simp only [hchk] at h
        rw [show res = res' from (Except.ok.inj h).symm]
        refine sampleSteps_keys corpus d n oracle hwf (n - 1) 1 _ first res' pg
          ?_ hs
        intro q hq
        have hqf : q = first := by simpa using hq
        rw [hqf]
        exact uniformChoice_mem hu

/-! ### In-place reads inside a round of iterate_pagerank -/

theorem foldl_roundStep_lookup_of_not_mem (corpus : Corpus) (d : ℚ)
    (incIdx : List (Page × List Page)) {p : Page} :
    ∀ (ks : List Page) (acc : Model × ℚ), p ∉ ks →
      dlookup (ks.foldl (roundStep corpus d incIdx) acc).1 p = dlookup acc.1 p
  | [], _, _ => rfl
  | q :: rest, acc, hp => by
    rw [List.foldl_cons,
      foldl_roundStep_lookup_of_not_mem corpus d incIdx rest _
        (fun hm => hp (List.mem_cons_of_mem _ hm))]
    unfold roundStep
    cases dlookup incIdx q with
    | none => rfl
    | some inc =>
      have hpq : ¬ p = q := fun he => hp (by rw [he]; exact List.mem_cons_self _ _)
      rw [show (dset acc.1 q (newRankOf corpus d acc.1 inc),
          acc.2 + |((dlookup acc.1 q).getD 0) - newRankOf corpus d acc.1 inc|).1
          = dset acc.1 q (newRankOf corpus d acc.1 inc) from rfl,
        dlookup_dset, if_neg hpq]

/-! ### The claims -/

/-- The uniform initial rank table of the 3-page corpus `corpus3`. -/
def ranks3 : Model := [("A", 1/3), ("B", 1/3), ("C", 1/3)]

/-- Claim C1: the distribution returned by `iterate_pagerank` is supposed to
have every value in `[0,1]` and a sum that rounds to 1, but on the graph
`A → B`, `B → C`, `C → B` with `d = 0.85` the loop converges to a mapping
whose value at `B` exceeds 1 and whose value sum rounds to 2.887, because
pages with no incoming links are skipped and rounds read their own updates;
`iterate_pagerank` performs no validation before returning. -/
theorem C1_iterate_breaks_distribution_invariant :
    iterate_pagerank corpus3 (17/20) 40 ≠ none ∧
    1 < (dlookup ((iterate_pagerank corpus3 (17/20) 40).getD []) "B").getD 0 ∧
    round3 ((dvalues ((iterate_pagerank corpus3 (17/20) 40).getD [])).sum) ≠ 1 := by
  decide

/-- Claim C2: the spec says a page with no incoming links is assigned the
base term `(1-d)/|graph|` each round, but `iterate_pagerank` skips such
pages with `continue`, so on `A → B` (with `B` a sink, `d = 0.85`) page `A`
keeps its initial rank `1/2` forever instead of receiving
`(1-0.85)/2 = 0.075`. -/
theorem C2_no_incoming_page_keeps_initial_rank :
    dlookup (incomingIndex corpusAB) "A" = none ∧
    iterate_pagerank corpusAB (17/20) 5 = some [("A", 1/2), ("B", 1/2)] ∧
    dlookup ((iterate_pagerank corpusAB (17/20) 5).getD []) "A" = some (1/2) ∧
    ((1 : ℚ)/2) ≠ (1 - 17/20) / 2 := by
  decide

/-- Claim C3, counterexample: on `corpus3` a single round of the code's
update gives page `C` a value computed from `B`'s same-round update, which
differs both from the snapshot-reading round modelled from the spec and
from the value `newRankOf` yields on the previous round's snapshot. -/
theorem C3_round_counterexample :
    (runRound corpus3 (17/20) (incomingIndex corpus3) ranks3).1 ≠
      (roundSnapshot corpus3 (17/20) (incomingIndex corpus3) ranks3).1 ∧
    dlookup (runRound corpus3 (17/20) (incomingIndex corpus3) ranks3).1 "C" ≠
      some (newRankOf corpus3 (17/20) ranks3 ["B"]) := by
  decide

/-- Claim C3, amended: a round of `iterate_pagerank` updates the rank dict
in place in page order; a page `p`'s value after the round is the one
written by `p`'s own step applied to the state accumulated over all pages
processed earlier in the same round (so `p`'s new rank can read same-round
updates), and the steps after `p` leave it unchanged. -/
theorem C3_round_inplace_reads (corpus : Corpus) (d : ℚ)
    (incIdx : List (Page × List Page)) (ranks : Model)
    (ks1 ks2 : List Page) (p : Page)
    (hsplit : dkeys corpus = ks1 ++ p :: ks2) (hp : p ∉ ks2) :
    dlookup (runRound corpus d incIdx ranks).1 p =
      dlookup (roundStep corpus d incIdx
        (ks1.foldl (roundStep corpus d incIdx) (ranks, 0)) p).1 p := by
  unfold runRound
  rw [hsplit, List.foldl_append, List.foldl_cons]
  exact foldl_roundStep_lookup_of_not_mem corpus d incIdx ks2 _ hp

/-- Claim C3, witness: the amended statement instantiated on `corpus3`
with the page list split `["A", "B"] ++ "C" :: []`. -/
theorem C3_round_inplace_reads_witness :
    (dkeys corpus3 = ["A", "B"] ++ "C" :: []) ∧
    (("C" : Page) ∉ ([] : List Page)) ∧
    dlookup (runRound corpus3 (17/20) (incomingIndex corpus3) ranks3).1 "C" =
      dlookup (roundStep corpus3 (17/20) (incomingIndex corpus3)
        ((["A", "B"] : List Page).foldl
          (roundStep corpus3 (17/20) (incomingIndex corpus3)) (ranks3, 0))
        "C").1 "C" :=
  ⟨by decide, by decide,
    C3_round_inplace_reads corpus3 (17/20) (incomingIndex corpus3) ranks3
      ["A", "B"] [] "C" (by decide) (by decide)⟩

/-- Claim C4, counterexample: in one loop iteration of `sample_pagerank`
on `A ↔ B` the page credited `1/n` is `"B"` (drawn from the transition
distribution at line 139) while the page made current for the next step is
`"A"` (drawn by the separate two-stage selection at lines 148-152), so the
page chosen by the two-stage selection is not the page that is credited. -/
theorem C4_step_counterexample :
    sampleSteps corpus2 (17/20) 2 (fun k => if k = 2 then (9:ℚ)/10 else 0)
        1 1 [("A", 1/2)] "A" =
      .ok ([("A", (1:ℚ)/2), ("B", 1/2)], "A") ∧
    dlookup [("A", (1:ℚ)/2), ("B", (1:ℚ)/2)] "B" = some (1/2) ∧
    ("B" : Page) ≠ "A" :=
  ⟨rfl, by decide, by decide⟩

/-- Claim C4, amended: each loop iteration of `sample_pagerank` performs two
independent draws: the page credited `1/n` is drawn directly from the
transition distribution, and the page made current for the next step comes
from the separate two-stage selection (with probability `d` a second draw
from the transition distribution, otherwise a uniform draw over all
pages); the credited page and the next current page can differ. -/
theorem C4_step_two_independent_draws (corpus : Corpus) (d : ℚ) (n : ℕ)
    (oracle : ℕ → ℚ) (steps t : ℕ) (counts : Model) (page : Page)
    (tm : Model) (cred : Page) (m : Bool) (nxt : Page)
    (h1 : transition_model corpus page d = .ok tm)
    (h2 : weightedChoice tm (oracle t) = .ok cred)
    (h3 : weightedChoice [(true, d), (false, 1 - d)] (oracle (t + 1)) = .ok m)
    (h4 : (if m then weightedChoice tm (oracle (t + 2))
           else uniformChoice (dkeys corpus) (oracle (t + 2))) = .ok nxt) :
    sampleSteps corpus d n oracle (steps + 1) t counts page =
      sampleSteps corpus d n oracle steps (t + 3)
        (daddOr counts cred ((1 : ℚ) / (n : ℚ))) nxt := by
  rw [sampleSteps]
  simp only [h1, h2, h3, h4]

/-- Claim C4, witness: the amended statement instantiated on `A ↔ B` with
an oracle that credits `"B"` and then moves to `"A"`. -/
theorem C4_step_two_independent_draws_witness :
    (transition_model corpus2 "A" (17/20) = .ok [("B", (37:ℚ)/40), ("A", 3/40)]) ∧
    (weightedChoice [("B", (37:ℚ)/40), ("A", 3/40)]
      ((fun k => if k = 2 then (9:ℚ)/10 else 0) 1) = .ok "B") ∧
    (weightedChoice [(true, (17:ℚ)/20), (false, 1 - 17/20)]
      ((fun k => if k = 2 then (9:ℚ)/10 else 0) (1 + 1)) = .ok false) ∧
    ((if false then weightedChoice [("B", (37:ℚ)/40), ("A", 3/40)]
        ((fun k => if k = 2 then (9:ℚ)/10 else 0) (1 + 2))
      else uniformChoice (dkeys corpus2)
        ((fun k => if k = 2 then (9:ℚ)/10 else 0) (1 + 2))) = .ok "A") ∧
    sampleSteps corpus2 (17/20) 2 (fun k => if k = 2 then (9:ℚ)/10 else 0)
        (0 + 1) 1 [("A", 1/2)] "A" =
      sampleSteps corpus2 (17/20) 2 (fun k => if k = 2 then (9:ℚ)/10 else 0)
        0 (1 + 3) (daddOr [("A", 1/2)] "B" ((1 : ℚ) / ((2:ℕ) : ℚ))) "A" :=
  ⟨by decide, by decide, by decide, by decide,
    C4_step_two_independent_draws corpus2 (17/20) 2
      (fun k => if k = 2 then (9:ℚ)/10 else 0) 0 1 [("A", 1/2)] "A"
      [("B", (37:ℚ)/40), ("A", 3/40)] "B" false "A" (by decide) (by decide)
      (by decide) (by decide)⟩

/-- Claim C5, counterexample: `sample_pagerank` on the two-page graph
`A ↔ B` with `n = 1` returns a mapping whose only key is the initially
drawn page `"A"`, so the never-visited page `"B"` is a missing key. -/
theorem C5_sample_missing_key_counterexample :
    sample_pagerank corpus2 (17/20) 1 (fun _ => 0) = .ok [("A", 1)] ∧
    "B" ∈ dkeys corpus2 ∧ "B" ∉ dkeys [("A", (1:ℚ))] :=
  ⟨rfl, by decide, by decide⟩

/-- Claim C5, amended: `iterate_pagerank`'s returned mapping has exactly
the graph's pages as keys, while `sample_pagerank`'s returned mapping has
keys drawn from the graph's pages (the visited ones) and may omit pages. -/
theorem C5_result_keys (corpus : Corpus) (d : ℚ) (fuel n : ℕ)
    (oracle : ℕ → ℚ) (res sres : Model) (hwf : CorpusWF corpus)
    (hit : iterate_pagerank corpus d fuel = some res)
    (hs : sample_pagerank corpus d n oracle = .ok sres) :
    dkeys res = dkeys corpus ∧ ∀ q ∈ dkeys sres, q ∈ dkeys corpus := by
  constructor
  · have hinit : dkeys ((dkeys corpus).foldl
        (fun m p => dset m p (1 / (corpus.length : ℚ))) []) = dkeys corpus := by
      rw [foldl_dset_const _ _ _ hwf.1 (by simp)]
      simpa using dkeys_map_pair (1 / (corpus.length : ℚ)) (dkeys corpus)
    unfold iterate_pagerank at hit
    exact iterRounds_keys corpus d (incomingIndex corpus) fuel _ res hinit hit
  · exact sample_pagerank_keys hwf hs

/-- Claim C5, witness: the amended statement instantiated on `A ↔ B`. -/
theorem C5_result_keys_witness :
    CorpusWF corpus2 ∧
    iterate_pagerank corpus2 (17/20) 5 = some [("A", 1/2), ("B", 1/2)] ∧
    sample_pagerank corpus2 (17/20) 2 (fun _ => 0) = .ok [("A", 1/2), ("B", 1/2)] ∧
    (dkeys [("A", (1:ℚ)/2), ("B", 1/2)] = dkeys corpus2 ∧
      ∀ q ∈ dkeys [("A", (1:ℚ)/2), ("B", 1/2)], q ∈ dkeys corpus2) :=
  ⟨by decide, by decide, by decide,
    C5_result_keys corpus2 (17/20) 5 2 (fun _ => 0) _ _ (by decide)
      (by decide) (by decide)⟩

/-- Claim C6, counterexample: on a graph with zero pages neither function
raises a dedicated EmptyGraph precondition error — `iterate_pagerank`
returns an empty mapping without any error, and `sample_pagerank` fails
with the IndexError propagated from `random.choice` on the empty page
list. -/
theorem C6_empty_graph_counterexample :
    iterate_pagerank ([] : Corpus) (17/20) 3 = some [] ∧
    sample_pagerank ([] : Corpus) (17/20) 5 (fun _ => 0) = .error .indexError :=
  ⟨rfl, rfl⟩

/-- Claim C6, amended: for every damping factor, sample count, oracle and
positive fuel, `iterate_pagerank` on the empty graph terminates normally
with the empty mapping, and `sample_pagerank` on the empty graph fails with
an IndexError from the very first uniform choice; no EmptyGraph
precondition check exists in either function. -/
theorem C6_empty_graph_behavior (d : ℚ) (n fuel : ℕ) (oracle : ℕ → ℚ)
    (hfuel : 1 ≤ fuel) :
    iterate_pagerank ([] : Corpus) d fuel = some [] ∧
    sample_pagerank ([] : Corpus) d n oracle = .error .indexError := by
  constructor
  · obtain ⟨f, rfl⟩ : ∃ f, fuel = f + 1 :=
      ⟨fuel - 1, (Nat.succ_pred_eq_of_pos hfuel).symm⟩
    rfl
  · rfl

/-- Claim C6, witness: the amended statement instantiated at fuel 1. -/
theorem C6_empty_graph_behavior_witness :
    1 ≤ 1 ∧
    iterate_pagerank ([] : Corpus) (1/2) 1 = some [] ∧
    sample_pagerank ([] : Corpus) (1/2) 7 (fun _ => 1/2) = .error .indexError :=
  ⟨le_refl 1,
    (C6_empty_graph_behavior (1/2) 7 1 (fun _ => 1/2) (le_refl 1)).1,
    (C6_empty_graph_behavior (1/2) 7 1 (fun _ => 1/2) (le_refl 1)).2⟩

/-- Claim C7: for every page with at least one outbound link,
`transition_model` succeeds and assigns each linked page
`d/|links| + (1-d)/|graph|` and each non-linked page `(1-d)/|graph|`,
the two contributions summed. -/
theorem C7_transition_linked_split (corpus : Corpus) (page : Page) (d : ℚ)
    (links : List Page) (hwf : CorpusWF corpus) (hd0 : 0 < d) (hd1 : d < 1)
    (hlk : dlookup corpus page = some links) (hne : links ≠ []) :
    ∃ tm, transition_model corpus page d = .ok tm ∧
      (∀ q ∈ links, dlookup tm q =
        some (d / (links.length : ℚ) + (1 - d) / (corpus.length : ℚ))) ∧
      (∀ q ∈ dkeys corpus, q ∉ links →
        dlookup tm q = some ((1 - d) / (corpus.length : ℚ))) := by
  obtain ⟨hndk, hres, hlnds⟩ := hwf
  have hmem := mem_of_dlookup hlk
  have hlnd : links.Nodup := hlnds (page, links) hmem
  have hsub : ∀ q ∈ links, q ∈ dkeys corpus :=
    fun q hq => hres (page, links) hmem q hq
  have hcne : corpus ≠ [] := fun hc => by rw [hc] at hmem; simp at hmem
  have hL0 : ¬ links.length = 0 := fun hl => hne (List.length_eq_zero.1 hl)
  have hraw : tmRaw corpus links d = tmWithSurfer corpus links d := by
    unfold tmRaw
    rw [if_neg hL0]
  refine ⟨tmWithSurfer corpus links d, ?_, ?_, ?_⟩
  · rw [transition_model_eq_of_lookup hlk, hraw,
      tmWithSurfer_check corpus links d hndk hlnd hsub hne hcne hd0 hd1]
  · intro q hq
    rw [tmWithSurfer_lookup_linked corpus links d hndk hlnd hsub hq, mul_one]
  · intro q hq hql
    exact tmWithSurfer_lookup_unlinked corpus links d hndk hlnd hq hql

/-- Claim C7, witness: the spec's example — page `A` with links `{B, C}`
in a 3-page graph at `d = 0.85`: linked pages get `0.475`, the unlinked
page `0.05`, and these sum to 1. -/
theorem C7_transition_linked_split_witness :
    CorpusWF corpusC7 ∧ ((0:ℚ) < 17/20) ∧ ((17:ℚ)/20 < 1) ∧
    dlookup corpusC7 "A" = some ["B", "C"] ∧ ((["B", "C"] : List Page) ≠ []) ∧
    (∃ tm, transition_model corpusC7 "A" (17/20) = .ok tm ∧
      (∀ q ∈ (["B", "C"] : List Page), dlookup tm q =
        some ((17:ℚ)/20 / (((["B", "C"] : List Page).length : ℕ) : ℚ) +
          (1 - 17/20) / ((corpusC7.length : ℕ) : ℚ))) ∧
      (∀ q ∈ dkeys corpusC7, q ∉ (["B", "C"] : List Page) →
        dlookup tm q = some ((1 - (17:ℚ)/20) / ((corpusC7.length : ℕ) : ℚ)))) ∧
    ((17:ℚ)/20 / (((["B", "C"] : List Page).length : ℕ) : ℚ) +
      (1 - 17/20) / ((corpusC7.length : ℕ) : ℚ) = 19/40) ∧
    ((1 - (17:ℚ)/20) / ((corpusC7.length : ℕ) : ℚ) = 1/20) ∧
    ((19:ℚ)/40 + 19/40 + 1/20 = 1) :=
  ⟨by decide, by decide, by decide, by decide, by decide,
    C7_transition_linked_split corpusC7 "A" (17/20) ["B", "C"] (by decide)
      (by decide) (by decide) (by decide) (by decide),
    by decide, by decide, by decide⟩

/-- Claim C8: for every page with zero outbound links, `transition_model`
succeeds (for any damping factor, which the sink branch ignores) and
returns the uniform distribution assigning exactly `1/N` to every page of
the graph, the sink included. -/
theorem C8_transition_sink_uniform (corpus : Corpus) (page : Page) (d : ℚ)
    (hnd : (dkeys corpus).Nodup) (hpage : dlookup corpus page = some []) :
    ∃ tm, transition_model corpus page d = .ok tm ∧
      dkeys tm = dkeys corpus ∧
      ∀ q ∈ dkeys corpus, dlookup tm q = some (1 / (corpus.length : ℚ)) := by
  have hmem := mem_of_dlookup hpage
  have hne : corpus ≠ [] := fun hc => by rw [hc] at hmem; simp at hmem
  have hraw : tmRaw corpus [] d = tmUniform corpus := rfl
  refine ⟨tmUniform corpus, ?_, ?_, ?_⟩
  · rw [transition_model_eq_of_lookup hpage, hraw,
      tmUniform_check corpus hnd hne]
  · rw [tmUniform_eq corpus hnd, dkeys_map_pair]
  · intro q hq
    exact tmUniform_lookup corpus hnd hq

/-- Claim C8, witness: the sink page `B` of `A → B` gets the uniform
distribution `1/2` on each of the two pages, itself included. -/
theorem C8_transition_sink_uniform_witness :
    (dkeys corpusAB).Nodup ∧ dlookup corpusAB "B" = some [] ∧
    (∃ tm, transition_model corpusAB "B" (17/20) = .ok tm ∧
      dkeys tm = dkeys corpusAB ∧
      ∀ q ∈ dkeys corpusAB, dlookup tm q = some (1 / (corpusAB.length : ℚ))) :=
  ⟨by decide, by decide,
    C8_transition_sink_uniform corpusAB "B" (17/20) (by decide) (by decide)⟩

/-- Claim C9: `checkProbabilityDictionary` raises if and only if some value
of the distribution lies outside `[0,1]` or the sum of its values rounded
to 3 decimal places differs from 1; otherwise it returns normally. -/
theorem C9_check_characterization (m : Model) :
    (∃ e, checkProbabilityDictionary m = .error e) ↔
      ((∃ pv ∈ m, 1 < pv.2 ∨ pv.2 < 0) ∨ round3 (dvalues m).sum ≠ 1) := by
  by_cases hb : ∃ pv ∈ m, 1 < pv.2 ∨ pv.2 < 0
  · constructor
    · intro _
      exact Or.inl hb
    · intro _
      refine ⟨.boundsErr, ?_⟩
      unfold checkProbabilityDictionary
      rw [checkSum_error m hb 0]
  · have hok : checkSum m 0 = .ok ((dvalues m).sum) := by
      rw [checkSum_ok m 0 (fun pv hpv hor => hb ⟨pv, hpv, hor⟩), zero_add]
    have hchk : checkProbabilityDictionary m =
        if round3 (dvalues m).sum ≠ 1 then .error .sumErr else .ok true := by
      unfold checkProbabilityDictionary
      rw [hok]
    by_cases hs : round3 (dvalues m).sum = 1
    · constructor
      · rintro ⟨e, he⟩
        rw [hchk, if_neg (not_not_intro hs)] at he
        exact Except.noConfusion he
      · intro hor
        rcases hor with h | h
        · exact absurd h hb
        · exact absurd hs h
    · constructor
      · intro _
        exact Or.inr hs
      · intro _
        refine ⟨.sumErr, ?_⟩
        rw [hchk, if_pos hs]

/-- Claim C10: a page `q` is recorded in the incoming-links index for `p`
only when `p` is a member of `corpus[q]`, so every page iterated over as an
incoming link has a nonempty outbound link set and the divisor
`len(corpus[incomingPage])` in `iterate_pagerank` is never zero. -/
theorem C10_incoming_divisor_defined (corpus : Corpus) (p q : Page)
    (hnd : (dkeys corpus).Nodup)
    (hq : q ∈ (dlookup (incomingIndex corpus) p).getD []) :
    ∃ links, dlookup corpus q = some links ∧ p ∈ links ∧ 0 < links.length := by
  have hinv := incomingIndex_inv corpus
    (fun a b => ∃ ls, (a, ls) ∈ corpus ∧ b ∈ ls)
    (fun pl hpl x hx => ⟨pl.2, by simpa using hpl, hx⟩) p q hq
  rcases hinv with ⟨ls, hmem, hp⟩
  refine ⟨ls, dlookup_of_mem_nodup hnd hmem, hp, ?_⟩
  cases ls with
  | nil => simp at hp
  | cons a rest => simp

/-- Claim C10, witness: in `corpus3` the page `C` is recorded as an
incoming link of `B`, and indeed `corpus3[C] = [B]` is nonempty. -/
theorem C10_incoming_divisor_defined_witness :
    (dkeys corpus3).Nodup ∧
    ("C" ∈ (dlookup (incomingIndex corpus3) "B").getD []) ∧
    (∃ links, dlookup corpus3 "C" = some links ∧ "B" ∈ links ∧
      0 < links.length) :=
  ⟨by decide, by decide,
    C10_incoming_divisor_defined corpus3 "B" "C" (by decide) (by decide)⟩

end PageRank
